import Mathlib

/-!
Verification development for the `flexicon` adaptive named-map library
(`src/adaptive/namedmap.rs`).

The Rust code defines `NamedMap<T>`, a wrapper around `HashMap<String, T>`
with adaptive deserialization: the input may be either a sequence of bare
name strings (each turned into a value via the `FromName` trait), or a
mapping from names to structured values (decoded with the element type's
standard decoder).  Serialization always emits the mapping shape.

The embedding below models:
  * the generic structured value tree (`Json`), standing for `serde_json::Value`;
  * `NamedMap T` as an association list with distinct keys, the extensional
    content of `HashMap<String, T>`;
  * the two decode paths: the generic serde `Deserialize` impl driven by a
    value tree (`deserializeNM`, modelling `deserializer.deserialize_any`
    applied to `NamedMapVisitor`), and the JSON-specific
    `NamedMap.from_json_value`;
  * the canonical encoder `to_json_value` / `to_json_string`;
  * the string layer (compact JSON printing and parsing), which in the Rust
    crate is delegated to the external `serde_json` string codec.

Element-type capabilities are passed explicitly: `fn : String → T` stands
for `FromName::from_name`, `dec : Json → Except String T` for the element
type's `Deserialize` impl, and `enc : T → Json` for its `Serialize` impl.
-/

/-- The generic structured value tree, modelling `serde_json::Value`. -/
inductive Json where
  | null
  | bool (b : Bool)
  | num (n : Int)
  | str (s : String)
  | arr (items : List Json)
  | obj (fields : List (String × Json))

namespace Json

/-- Models `serde_json::Value::as_str`: `Some` exactly on string values. -/
def asStr : Json → Option String
  | .str s => some s
  | _ => none

/-- Whether the value is a plain string. -/
def isStr : Json → Bool
  | .str _ => true
  | _ => false

/-- Whether the value is an array (the sequence shape). -/
def isArr : Json → Bool
  | .arr _ => true
  | _ => false

/-- Whether the value is an object (the mapping shape). -/
def isObj : Json → Bool
  | .obj _ => true
  | _ => false

end Json

/-- Keys of an association list, in order. -/
def keysOf {T : Type} (l : List (String × T)) : List String :=
  l.map Prod.fst

/-- First-match lookup in an association list (the extensional content of
`HashMap::get` once keys are distinct). -/
def assocLookup {T : Type} : List (String × T) → String → Option T
  | [], _ => none
  | (k, v) :: rest, key => if k = key then some v else assocLookup rest key

/-- In-place insert-or-overwrite on an association list: the extensional
content of `HashMap::insert` (overwrites the binding when the key is
present, appends a fresh binding otherwise). -/
def assocInsert {T : Type} : List (String × T) → String → T → List (String × T)
  | [], k, v => [(k, v)]
  | (k', v') :: rest, k, v =>
      if k' = k then (k, v) :: rest else (k', v') :: assocInsert rest k v

theorem keysOf_assocInsert {T : Type} (l : List (String × T)) (k : String) (v : T) :
    keysOf (assocInsert l k v) =
      if k ∈ keysOf l then keysOf l else keysOf l ++ [k] := by
  induction l with
  | nil => simp [assocInsert, keysOf]
  | cons p rest ih =>
      obtain ⟨k', v'⟩ := p
      by_cases hk : k' = k
      · subst hk
        simp [assocInsert, keysOf]
      · simp only [assocInsert, if_neg hk, keysOf, List.map_cons]
        have hne : k ≠ k' := fun h => hk h.symm
        by_cases hmem : k ∈ keysOf rest
        · simp [keysOf] at hmem
          simp [hmem, keysOf] at ih ⊢
          simpa [keysOf] using ih
        · simp [keysOf] at hmem
          simp [hmem, hne, keysOf] at ih ⊢
          simpa [keysOf] using ih

theorem nodup_assocInsert {T : Type} (l : List (String × T)) (k : String) (v : T)
    (h : (keysOf l).Nodup) : (keysOf (assocInsert l k v)).Nodup := by
  rw [keysOf_assocInsert]
  by_cases hmem : k ∈ keysOf l
  · simpa [hmem] using h
  · simp only [hmem, if_false]
    simpa [List.nodup_append, hmem] using h

/-- Models `NamedMap<T>`: a `HashMap<String, T>` presented extensionally as
an association list whose keys are distinct. -/
structure NamedMap (T : Type) where
  entries : List (String × T)
  nodupKeys : (keysOf entries).Nodup

namespace NamedMap

theorem ext_entries {T : Type} {m₁ m₂ : NamedMap T}
    (h : m₁.entries = m₂.entries) : m₁ = m₂ := by
  cases m₁; cases m₂; simp_all

/-- Models `NamedMap::new`: the empty map. -/
def new (T : Type) : NamedMap T :=
  ⟨[], List.nodup_nil⟩

/-- Models the `Default` impl, which delegates to `Self::new()`. -/
def defaultMap (T : Type) : NamedMap T :=
  new T

/-- Models `NamedMap::insert` (via `HashMap::insert`): insert or overwrite
the association for the key. -/
def insert {T : Type} (m : NamedMap T) (k : String) (v : T) : NamedMap T :=
  ⟨assocInsert m.entries k v, nodup_assocInsert m.entries k v m.nodupKeys⟩

/-- Models `NamedMap::is_empty`. -/
def is_empty {T : Type} (m : NamedMap T) : Bool :=
  m.entries.isEmpty

/-- Models `HashMap::len` (reachable through the `Deref` impl): the number
of entries. -/
def size {T : Type} (m : NamedMap T) : Nat :=
  m.entries.length

/-- Models `HashMap::get` (reachable through the `Deref` impl). -/
def lookup {T : Type} (m : NamedMap T) (k : String) : Option T :=
  assocLookup m.entries k

/-- Extensional equality of collections: same keys, equal values. -/
def Equiv {T : Type} (m₁ m₂ : NamedMap T) : Prop :=
  ∀ k, m₁.lookup k = m₂.lookup k

/-- Models `impl<T: FromName + Clone> From<Vec<String>> for NamedMap<T>`:
iterate over the list in order, inserting `name ↦ from_name(name)`. -/
def fromNames {T : Type} (fn : String → T) (names : List String) : NamedMap T :=
  names.foldl (fun m n => m.insert n (fn n)) (new T)

end NamedMap

/-- Models deserializing a `String` out of a value with serde
(`seq.next_element::<String>()` on a `serde_json` sequence element):
succeeds exactly on string values. -/
def decodeString (v : Json) : Except String String :=
  match v with
  | .str s => .ok s
  | _ => .error "invalid type: expected a string"

/-- Models the loop body of `NamedMapVisitor::visit_seq`: drain the
sequence, decoding each element as a `String` and inserting
`name ↦ from_name(name)` into the accumulating map. -/
def visitSeqAux {T : Type} (fn : String → T) :
    List Json → NamedMap T → Except String (NamedMap T)
  | [], m => .ok m
  | item :: rest, m =>
      match decodeString item with
      | .error e => .error e
      | .ok name => visitSeqAux fn rest (m.insert name (fn name))

/-- Models the entry-draining loop of serde's standard
`HashMap<String, T>` deserialization (used by `visit_map` through
`MapAccessDeserializer` and by `serde_json::from_value`): decode each
value with the element decoder and insert it. -/
def decodeMapEntries {T : Type} (dec : Json → Except String T) :
    List (String × Json) → NamedMap T → Except String (NamedMap T)
  | [], m => .ok m
  | (k, jv) :: rest, m =>
      match dec jv with
      | .error e => .error e
      | .ok t => decodeMapEntries dec rest (m.insert k t)

/-- Models the generic serde decode path for `NamedMap<T>`:
`deserializer.deserialize_any(NamedMapVisitor)` driven by a value tree.
A sequence reaches `visit_seq`, a mapping reaches `visit_map`, and every
other shape hits the visitor's default handlers, which reject the input
with an invalid-type error. -/
def deserializeNM {T : Type} (fn : String → T) (dec : Json → Except String T)
    (v : Json) : Except String (NamedMap T) :=
  match v with
  | .arr items => visitSeqAux fn items (NamedMap.new T)
  | .obj fields => decodeMapEntries dec fields (NamedMap.new T)
  | _ => .error "invalid type: expected either a map or a sequence of strings"

/-- Models the loop of the `Value::Array` branch of
`NamedMap::from_json_value`: each item must answer to `as_str`, otherwise
the decode fails with the custom error; on success insert
`name ↦ from_name(name)`. -/
def fromJsonArrAux {T : Type} (fn : String → T) :
    List Json → NamedMap T → Except String (NamedMap T)
  | [], m => .ok m
  | item :: rest, m =>
      match item.asStr with
      | none => .error "array items must be strings"
      | some s => fromJsonArrAux fn rest (m.insert s (fn s))

/-- Models `NamedMap::from_json_value`: dispatch on the top-level shape of
the value — objects go through `serde_json::from_value::<HashMap<String, T>>`,
arrays through the string-items loop, anything else is rejected. -/
def from_json_value {T : Type} (fn : String → T) (dec : Json → Except String T)
    (v : Json) : Except String (NamedMap T) :=
  match v with
  | .obj fields => decodeMapEntries dec fields (NamedMap.new T)
  | .arr items => fromJsonArrAux fn items (NamedMap.new T)
  | _ => .error "NamedMap must be an object or array of strings"

/-- Models `serde_json::to_value(&self.0)` (and the `Serialize` impl, which
serializes the inner map the same way): a string-keyed map serializes to
the object shape, each value encoded by the element encoder. -/
def to_json_value {T : Type} (enc : T → Json) (m : NamedMap T) : Json :=
  Json.obj (m.entries.map (fun p => (p.1, enc p.2)))

/-!
### The string layer

In the Rust crate the string ↔ value conversions are delegated to the
external `serde_json` codec (`serde_json::to_string`,
`serde_json::from_str`), which the specification places at the external
structural-codec boundary.  The definitions below are a compact JSON
printer and parser for the value tree, modelled from the spec's
description of that boundary.
-/

/-- Modelled from the spec: string escaping of the external codec — a
quote or backslash inside a string is emitted behind a backslash. -/
def escapeChar (c : Char) : List Char :=
  if c = '"' ∨ c = '\\' then ['\\', c] else [c]

/-- Escape every character of a string body. -/
def escapeList : List Char → List Char
  | [] => []
  | c :: rest => escapeChar c ++ escapeList rest

/-- The decimal digits of a natural number, most significant first. -/
def natDigits (n : Nat) : List Char :=
  if n < 10 then [Char.ofNat (48 + n)]
  else natDigits (n / 10) ++ [Char.ofNat (48 + n % 10)]
termination_by n
decreasing_by exact Nat.div_lt_self (by omega) (by omega)

/-- Modelled from the spec: integer printing of the external codec. -/
def printInt (i : Int) : List Char :=
  if i < 0 then '-' :: natDigits i.natAbs else natDigits i.toNat

mutual

/-- Modelled from the spec: the external codec's compact printing of a
structured value to text. -/
def printJson : Json → List Char
  | .null => 'n' :: 'u' :: ['l', 'l']
  | .bool true => 't' :: 'r' :: ['u', 'e']
  | .bool false => 'f' :: 'a' :: ['l', 's', 'e']
  | .num i => printInt i
  | .str s => '"' :: (escapeList s.data ++ ['"'])
  | .arr items => '[' :: (printElems items ++ [']'])
  | .obj fields => Char.ofNat 123 :: (printFields fields ++ [Char.ofNat 125])

/-- Comma-separated printing of sequence elements. -/
def printElems : List Json → List Char
  | [] => []
  | v :: rest => printJson v ++ printElemsTail rest

/-- The remaining sequence elements, each behind its separating comma. -/
def printElemsTail : List Json → List Char
  | [] => []
  | v :: rest => ',' :: (printJson v ++ printElemsTail rest)

/-- Comma-separated printing of quoted-key/value members. -/
def printFields : List (String × Json) → List Char
  | [] => []
  | (k, v) :: rest =>
      '"' :: (escapeList k.data ++ '"' :: ':' :: (printJson v ++ printFieldsTail rest))

/-- The remaining members, each behind its separating comma. -/
def printFieldsTail : List (String × Json) → List Char
  | [] => []
  | (k, v) :: rest =>
      ',' :: '"' :: (escapeList k.data ++ '"' :: ':' :: (printJson v ++ printFieldsTail rest))

end

/-- Whether a character is a decimal digit. -/
def isDigitChar (c : Char) : Bool :=
  decide (48 ≤ c.toNat ∧ c.toNat ≤ 57)

/-- Whether the input does not begin with a digit (so that a number read
just before it cannot swallow its first character). -/
def noDigitStart : List Char → Bool
  | [] => true
  | c :: _ => !(isDigitChar c)

/-- Classify the first character of a value: 0 null, 1 true, 2 false,
3 string, 4 negative number, 5 sequence, 6 mapping, 7 number, 8 junk. -/
def headKind (c : Char) : Nat :=
  if c = 'n' then 0
  else if c = 't' then 1
  else if c = 'f' then 2
  else if c = '"' then 3
  else if c = '-' then 4
  else if c = '[' then 5
  else if c = Char.ofNat 123 then 6
  else if isDigitChar c then 7
  else 8

/-- Consume an expected literal run of characters. -/
def expectChars : List Char → List Char → Option (List Char)
  | [], cs => some cs
  | _ :: _, [] => none
  | e :: es, c :: cs => if c = e then expectChars es cs else none

/-- Whether the input begins with the given character. -/
def headIs (c : Char) : List Char → Bool
  | [] => false
  | c0 :: _ => decide (c0 = c)

/-- Parse a string body up to its closing quote, undoing escapes. -/
def parseStrAux : List Char → Option (List Char × List Char)
  | [] => none
  | c :: rest =>
      if c = '"' then some ([], rest)
      else if c = '\\' then
        match rest with
        | [] => none
        | e :: rest2 =>
            match parseStrAux rest2 with
            | none => none
            | some (cs, r) => some (e :: cs, r)
      else
        match parseStrAux rest with
        | none => none
        | some (cs, r) => some (c :: cs, r)

/-- Parse a run of decimal digits as a natural number. -/
def parseNat (cs : List Char) : Option (Nat × List Char) :=
  match cs.takeWhile isDigitChar with
  | [] => none
  | ds => some (ds.foldl (fun a c => a * 10 + (c.toNat - 48)) 0,
                cs.dropWhile isDigitChar)

mutual

/-- Modelled from the spec: the external codec's parser from text to a
structured value.  Fueled to bound the nesting explored; the fuel is
irrelevant once it exceeds the size of the value being read. -/
def parseJ : Nat → List Char → Option (Json × List Char)
  | 0, _ => none
  | fuel + 1, cs =>
      match cs with
      | [] => none
      | c :: rest =>
          if headKind c = 0 then
            (expectChars ['u', 'l', 'l'] rest).map (fun r => (.null, r))
          else if headKind c = 1 then
            (expectChars ['r', 'u', 'e'] rest).map (fun r => (.bool true, r))
          else if headKind c = 2 then
            (expectChars ['a', 'l', 's', 'e'] rest).map (fun r => (.bool false, r))
          else if headKind c = 3 then
            (parseStrAux rest).map (fun p => (.str (String.mk p.1), p.2))
          else if headKind c = 4 then
            (parseNat rest).map (fun p => (.num (-(p.1 : Int)), p.2))
          else if headKind c = 5 then
            if headIs ']' rest then some (.arr [], rest.tail)
            else (parseElems fuel rest).map (fun p => (.arr p.1, p.2))
          else if headKind c = 6 then
            if headIs (Char.ofNat 125) rest then some (.obj [], rest.tail)
            else (parseFields fuel rest).map (fun p => (.obj p.1, p.2))
          else if headKind c = 7 then
            (parseNat (c :: rest)).map (fun p => (.num (p.1 : Int), p.2))
          else none
termination_by fuel _ => (fuel, 0)

/-- Parse one or more comma-separated elements up to the closing bracket. -/
def parseElems : Nat → List Char → Option (List Json × List Char)
  | 0, _ => none
  | fuel + 1, cs =>
      match parseJ (fuel + 1) cs with
      | none => none
      | some (v, rest) =>
          if headIs ']' rest then some ([v], rest.tail)
          else if headIs ',' rest then
            (parseElems fuel rest.tail).map (fun p => (v :: p.1, p.2))
          else none
termination_by fuel _ => (fuel, 1)

/-- Parse one or more comma-separated members up to the closing brace. -/
def parseFields : Nat → List Char → Option (List (String × Json) × List Char)
  | 0, _ => none
  | fuel + 1, cs =>
      if headIs '"' cs then
        match parseStrAux cs.tail with
        | none => none
        | some (kcs, r) =>
            if headIs ':' r then
              match parseJ (fuel + 1) r.tail with
              | none => none
              | some (v, rest2) =>
                  if headIs (Char.ofNat 125) rest2 then
                    some ([(String.mk kcs, v)], rest2.tail)
                  else if headIs ',' rest2 then
                    (parseFields fuel rest2.tail).map
                      (fun p => ((String.mk kcs, v) :: p.1, p.2))
                  else none
            else none
      else none
termination_by fuel _ => (fuel, 2)

end

/-- Modelled from the spec: the external codec's top-level parse — the
whole input must be consumed by one value. -/
def parseJsonString (s : String) : Except String Json :=
  match parseJ (s.data.length + 1) s.data with
  | some (v, []) => .ok v
  | _ => .error "JSON parse error"

/-- Models `NamedMap::to_json_string`: `serde_json::to_string(&self.0)`,
i.e. printing the canonical object form of the map. -/
def to_json_string {T : Type} (enc : T → Json) (m : NamedMap T) : String :=
  String.mk (printJson (to_json_value enc m))

/-- Models `NamedMap::from_json_str`: parse the string to a value with the
external codec, then run `from_json_value` on it. -/
def from_json_str {T : Type} (fn : String → T) (dec : Json → Except String T)
    (s : String) : Except String (NamedMap T) :=
  match parseJsonString s with
  | .error e => .error e
  | .ok v => from_json_value fn dec v

/-!
### Lemmas about the map operations
-/

theorem assocLookup_assocInsert_self {T : Type} (l : List (String × T)) (k : String) (v : T) :
    assocLookup (assocInsert l k v) k = some v := by
  induction l with
  | nil => simp [assocInsert, assocLookup]
  | cons p rest ih =>
      obtain ⟨k', v'⟩ := p
      by_cases hk : k' = k
      · simp [assocInsert, hk, assocLookup]
      · simp [assocInsert, hk, assocLookup, ih]

theorem assocLookup_assocInsert_ne {T : Type} (l : List (String × T)) (k : String) (v : T)
    (k' : String) (h : k' ≠ k) :
    assocLookup (assocInsert l k v) k' = assocLookup l k' := by
  induction l with
  | nil => simp [assocInsert, assocLookup, h.symm]
  | cons p rest ih =>
      obtain ⟨k0, v0⟩ := p
      by_cases hk : k0 = k
      · subst hk
        simp only [assocInsert, if_pos rfl, assocLookup, if_neg h.symm]
      · simp only [assocInsert, if_neg hk, assocLookup]
        by_cases hk' : k0 = k'
        · simp [hk']
        · simp [hk', ih]

theorem length_assocInsert {T : Type} (l : List (String × T)) (k : String) (v : T) :
    (assocInsert l k v).length =
      if (assocLookup l k).isNone then l.length + 1 else l.length := by
  induction l with
  | nil => simp [assocInsert, assocLookup]
  | cons p rest ih =>
      obtain ⟨k0, v0⟩ := p
      by_cases hk : k0 = k
      · simp [assocInsert, hk, assocLookup]
      · simp only [assocInsert, if_neg hk, assocLookup, List.length_cons, ih]
        by_cases hnone : (assocLookup rest k).isNone
        · simp [hnone]
        · simp [hnone]

theorem assocLookup_eq_none_iff {T : Type} (l : List (String × T)) (k : String) :
    assocLookup l k = none ↔ k ∉ keysOf l := by
  induction l with
  | nil => simp [assocLookup, keysOf]
  | cons p rest ih =>
      obtain ⟨k0, v0⟩ := p
      by_cases hk : k0 = k
      · subst hk
        simp [assocLookup, keysOf]
      · simp only [assocLookup, if_neg hk, ih, keysOf, List.map_cons, List.mem_cons]
        have hne : ¬ k = k0 := fun h => hk (Eq.symm h)
        tauto

namespace NamedMap

theorem lookup_insert_self {T : Type} (m : NamedMap T) (k : String) (v : T) :
    (m.insert k v).lookup k = some v :=
  assocLookup_assocInsert_self m.entries k v

theorem lookup_insert_ne {T : Type} (m : NamedMap T) (k : String) (v : T)
    (k' : String) (h : k' ≠ k) :
    (m.insert k v).lookup k' = m.lookup k' :=
  assocLookup_assocInsert_ne m.entries k v k' h

theorem size_insert {T : Type} (m : NamedMap T) (k : String) (v : T) :
    (m.insert k v).size = if (m.lookup k).isNone then m.size + 1 else m.size :=
  length_assocInsert m.entries k v

theorem lookup_new {T : Type} (k : String) : (new T).lookup k = none := rfl

theorem lookup_foldNames {T : Type} (fn : String → T) (names : List String) :
    ∀ (m0 : NamedMap T) (k : String),
      ((names.foldl (fun m n => m.insert n (fn n)) m0).lookup k) =
        if k ∈ names then some (fn k) else m0.lookup k := by
  induction names with
  | nil => intro m0 k; simp
  | cons n rest ih =>
      intro m0 k
      rw [List.foldl_cons, ih]
      by_cases hmem : k ∈ rest
      · simp [hmem]
      · by_cases hk : k = n
        · subst hk
          simp [hmem, lookup_insert_self]
        · simp [hmem, hk, lookup_insert_ne _ _ _ _ hk]

theorem lookup_fromNames {T : Type} (fn : String → T) (names : List String) (k : String) :
    (fromNames fn names).lookup k = if k ∈ names then some (fn k) else none := by
  rw [fromNames, lookup_foldNames]
  simp [lookup_new]

theorem mem_keysOf_iff_lookup {T : Type} (m : NamedMap T) (k : String) :
    k ∈ keysOf m.entries ↔ m.lookup k ≠ none := by
  rw [lookup]
  constructor
  · intro hmem hnone
    exact ((assocLookup_eq_none_iff m.entries k).mp hnone) hmem
  · intro hne
    by_contra hmem
    exact hne ((assocLookup_eq_none_iff m.entries k).mpr hmem)

theorem size_eq_card_keys {T : Type} (m : NamedMap T) :
    m.size = (keysOf m.entries).toFinset.card := by
  rw [size, List.toFinset_card_of_nodup m.nodupKeys, keysOf, List.length_map]

theorem size_fromNames {T : Type} (fn : String → T) (names : List String) :
    (fromNames fn names).size = names.dedup.length := by
  rw [size_eq_card_keys, ← List.card_toFinset]
  congr 1
  ext k
  simp only [List.mem_toFinset]
  rw [mem_keysOf_iff_lookup, lookup_fromNames]
  by_cases hmem : k ∈ names <;> simp [hmem]

end NamedMap

/-!
### Lemmas about the decode paths
-/

theorem asStr_eq_none_of_not_isStr (v : Json) (h : v.isStr = false) :
    v.asStr = none := by
  cases v <;> simp_all [Json.isStr, Json.asStr]

theorem decodeString_of_not_isStr (v : Json) (h : v.isStr = false) :
    decodeString v = .error "invalid type: expected a string" := by
  cases v <;> simp_all [Json.isStr, decodeString]

theorem fromJsonArrAux_strings {T : Type} (fn : String → T) (names : List String) :
    ∀ m0 : NamedMap T,
      fromJsonArrAux fn (names.map Json.str) m0 =
        .ok (names.foldl (fun m n => m.insert n (fn n)) m0) := by
  induction names with
  | nil => intro m0; simp [fromJsonArrAux]
  | cons n rest ih => intro m0; simp [fromJsonArrAux, Json.asStr, ih]

theorem visitSeqAux_strings {T : Type} (fn : String → T) (names : List String) :
    ∀ m0 : NamedMap T,
      visitSeqAux fn (names.map Json.str) m0 =
        .ok (names.foldl (fun m n => m.insert n (fn n)) m0) := by
  induction names with
  | nil => intro m0; simp [visitSeqAux]
  | cons n rest ih => intro m0; simp [visitSeqAux, decodeString, ih]

theorem fromJsonArrAux_err {T : Type} (fn : String → T) (items : List Json) :
    ∀ m0 : NamedMap T, items.all Json.isStr = false →
      fromJsonArrAux fn items m0 = .error "array items must be strings" := by
  induction items with
  | nil => intro m0 h; simp at h
  | cons item rest ih =>
      intro m0 h
      rcases hs : item.isStr with _ | _
      · have : item.asStr = none := asStr_eq_none_of_not_isStr item hs
        simp [fromJsonArrAux, this]
      · obtain ⟨s, rfl⟩ : ∃ s, item = Json.str s := by
          cases item <;> simp_all [Json.isStr]
        have hrest : rest.all Json.isStr = false := by
          simpa [Json.isStr] using h
        simp [fromJsonArrAux, Json.asStr, ih _ hrest]

theorem visitSeqAux_err {T : Type} (fn : String → T) (items : List Json) :
    ∀ m0 : NamedMap T, items.all Json.isStr = false →
      visitSeqAux fn items m0 = .error "invalid type: expected a string" := by
  induction items with
  | nil => intro m0 h; simp at h
  | cons item rest ih =>
      intro m0 h
      rcases hs : item.isStr with _ | _
      · have hds := decodeString_of_not_isStr item hs
        simp [visitSeqAux, hds]
      · obtain ⟨s, rfl⟩ : ∃ s, item = Json.str s := by
          cases item <;> simp_all [Json.isStr]
        have hrest : rest.all Json.isStr = false := by
          simpa [Json.isStr] using h
        simp [visitSeqAux, decodeString, ih _ hrest]

theorem visitSeqAux_agree {T : Type} (fn : String → T) (items : List Json) :
    ∀ m0 : NamedMap T,
      visitSeqAux fn items m0 = fromJsonArrAux fn items m0 ∨
        (∃ e₁ e₂, visitSeqAux fn items m0 = .error e₁ ∧
          fromJsonArrAux fn items m0 = .error e₂) := by
  induction items with
  | nil => intro m0; left; rfl
  | cons item rest ih =>
      intro m0
      rcases hs : item.isStr with _ | _
      · right
        refine ⟨"invalid type: expected a string", "array items must be strings",
          by simp [visitSeqAux, decodeString_of_not_isStr item hs],
          by simp [fromJsonArrAux, asStr_eq_none_of_not_isStr item hs]⟩
      · obtain ⟨s, rfl⟩ : ∃ s, item = Json.str s := by
          cases item <;> simp_all [Json.isStr]
        simpa [visitSeqAux, decodeString, fromJsonArrAux, Json.asStr] using ih _

/-- Modelled from the spec: the standard structural decode of a plain
`HashMap<String, T>` from a structured value (serde's ordinary map decode,
external to the repository) — only the mapping shape is accepted, every
value is decoded with the element type's standard decoder, and the decoded
entries are collected into a map. -/
def stdMapEntriesDecode {T : Type} (dec : Json → Except String T) :
    List (String × Json) → Except String (List (String × T))
  | [] => .ok []
  | (k, jv) :: rest =>
      match dec jv with
      | .error e => .error e
      | .ok t =>
          match stdMapEntriesDecode dec rest with
          | .error e => .error e
          | .ok r => .ok ((k, t) :: r)

/-- Modelled from the spec: decoding a plain `HashMap<String, T>` from a
structured value, as the external serde library does it. -/
def stdStringMapDecode {T : Type} (dec : Json → Except String T) (v : Json) :
    Except String (NamedMap T) :=
  match v with
  | .obj fields =>
      match stdMapEntriesDecode dec fields with
      | .error e => .error e
      | .ok prs => .ok (prs.foldl (fun m p => m.insert p.1 p.2) (NamedMap.new T))
  | _ => .error "invalid type: expected a map"

theorem decodeMapEntries_eq_std {T : Type} (dec : Json → Except String T)
    (fields : List (String × Json)) :
    ∀ m0 : NamedMap T,
      decodeMapEntries dec fields m0 =
        match stdMapEntriesDecode dec fields with
        | .error e => .error e
        | .ok prs => .ok (prs.foldl (fun m p => m.insert p.1 p.2) m0) := by
  induction fields with
  | nil => intro m0; simp [decodeMapEntries, stdMapEntriesDecode]
  | cons p rest ih =>
      intro m0
      obtain ⟨k, jv⟩ := p
      rcases hd : dec jv with e | t
      · simp [decodeMapEntries, stdMapEntriesDecode, hd]
      · simp only [decodeMapEntries, stdMapEntriesDecode, hd, ih (m0.insert k t)]
        rcases hstd : stdMapEntriesDecode dec rest with e | prs
        · simp
        · simp

/-- Looking up in a map obtained by folding inserts of an association list
with distinct keys: the binding from the list if present, the original
binding otherwise. -/
theorem lookup_foldl_insert {T : Type} (pairs : List (String × T)) :
    ∀ m0 : NamedMap T, (keysOf pairs).Nodup → ∀ k,
      ((pairs.foldl (fun m p => m.insert p.1 p.2) m0).lookup k) =
        match assocLookup pairs k with
        | some v => some v
        | none => m0.lookup k := by
  induction pairs with
  | nil => intro m0 _ k; simp [assocLookup]
  | cons p rest ih =>
      intro m0 hnd k
      obtain ⟨k0, v0⟩ := p
      have hnd' : (keysOf rest).Nodup := by
        simpa [keysOf] using hnd.of_cons
      have hk0 : k0 ∉ keysOf rest := by
        have h' : (k0 :: keysOf rest).Nodup := by simpa [keysOf] using hnd
        exact (List.nodup_cons.mp h').1
      rw [List.foldl_cons, ih (m0.insert k0 v0) hnd' k]
      rcases hrest : assocLookup rest k with _ | v
      · simp only [hrest, assocLookup]
        by_cases hk : k0 = k
        · subst hk
          simp [NamedMap.lookup_insert_self]
        · have hkne : k ≠ k0 := fun h => hk (Eq.symm h)
          simp [hk, hrest, NamedMap.lookup_insert_ne _ _ _ _ hkne]
      · have hmem : k ∈ keysOf rest := by
          by_contra hmem
          rw [(assocLookup_eq_none_iff rest k).mpr hmem] at hrest
          exact Option.noConfusion hrest
        have hk : k0 ≠ k := fun h => hk0 (h ▸ hmem)
        simp only [hrest, assocLookup, if_neg hk]

/-- Decoding the printed entries of a map whose element decoder inverts the
element encoder recovers exactly the fold of the original entries. -/
theorem decodeMapEntries_encoded {T : Type} (dec : Json → Except String T)
    (enc : T → Json) (hcodec : ∀ t, dec (enc t) = .ok t)
    (entries : List (String × T)) :
    ∀ m0 : NamedMap T,
      decodeMapEntries dec (entries.map (fun p => (p.1, enc p.2))) m0 =
        .ok (entries.foldl (fun m p => m.insert p.1 p.2) m0) := by
  induction entries with
  | nil => intro m0; simp [decodeMapEntries]
  | cons p rest ih =>
      intro m0
      obtain ⟨k, t⟩ := p
      simp [decodeMapEntries, hcodec t, ih]

/-!
### Round-trip lemmas for the string layer
-/

theorem toNat_ofNat_digit (d : Nat) (h : d < 10) :
    (Char.ofNat (48 + d)).toNat = 48 + d := by
  interval_cases d <;> rfl

theorem isDigitChar_ofNat_digit (d : Nat) (h : d < 10) :
    isDigitChar (Char.ofNat (48 + d)) = true := by
  interval_cases d <;> rfl

theorem natDigits_ne_nil (n : Nat) : natDigits n ≠ [] := by
  rw [natDigits]
  by_cases h : n < 10 <;> simp [h]

theorem natDigits_digits (n : Nat) : ∀ c ∈ natDigits n, isDigitChar c = true := by
  induction n using Nat.strong_induction_on with
  | _ n ih =>
      rw [natDigits]
      by_cases h : n < 10
      · simp only [if_pos h, List.mem_singleton]
        rintro c rfl
        exact isDigitChar_ofNat_digit n h
      · simp only [if_neg h, List.mem_append, List.mem_singleton]
        rintro c (hc | rfl)
        · exact ih (n / 10) (Nat.div_lt_self (by omega) (by omega)) c hc
        · exact isDigitChar_ofNat_digit (n % 10) (Nat.mod_lt _ (by omega))

theorem natDigits_foldl (n : Nat) : ∀ acc : Nat,
    (natDigits n).foldl (fun a c => a * 10 + (c.toNat - 48)) acc =
      acc * 10 ^ (natDigits n).length + n := by
  induction n using Nat.strong_induction_on with
  | _ n ih =>
      intro acc
      rw [natDigits]
      by_cases h : n < 10
      · simp only [if_pos h, List.foldl_cons, List.foldl_nil, List.length_singleton]
        rw [toNat_ofNat_digit n h]
        omega
      · simp only [if_neg h, List.foldl_append, List.foldl_cons, List.foldl_nil,
          List.length_append, List.length_singleton]
        rw [ih (n / 10) (Nat.div_lt_self (by omega) (by omega)) acc,
          toNat_ofNat_digit (n % 10) (Nat.mod_lt _ (by omega))]
        have hsub : 48 + n % 10 - 48 = n % 10 := by omega
        rw [hsub, pow_succ]
        have hdm : 10 * (n / 10) + n % 10 = n := Nat.div_add_mod n 10
        have hr : (acc * 10 ^ (natDigits (n / 10)).length + n / 10) * 10 + n % 10 =
            acc * (10 ^ (natDigits (n / 10)).length * 10) + (10 * (n / 10) + n % 10) := by
          ring
        rw [hr, hdm]

theorem takeWhile_digits_append (l rest : List Char)
    (hl : ∀ c ∈ l, isDigitChar c = true) (hr : noDigitStart rest = true) :
    (l ++ rest).takeWhile isDigitChar = l ∧
      (l ++ rest).dropWhile isDigitChar = rest := by
  induction l with
  | nil =>
      simp only [List.nil_append]
      cases rest with
      | nil => simp
      | cons c cs =>
          have hc : isDigitChar c = false := by
            simpa [noDigitStart] using hr
          simp [List.takeWhile_cons, List.dropWhile_cons, hc]
  | cons c cs ih =>
      have hc : isDigitChar c = true := hl c (by simp)
      have ih' := ih (fun c h => hl c (by simp [h]))
      simp [List.takeWhile_cons, List.dropWhile_cons, hc, ih']

theorem parseNat_print (n : Nat) (rest : List Char) (h : noDigitStart rest = true) :
    parseNat (natDigits n ++ rest) = some (n, rest) := by
  obtain ⟨htake, hdrop⟩ :=
    takeWhile_digits_append (natDigits n) rest (natDigits_digits n) h
  rw [parseNat, htake, hdrop]
  rcases hnd : natDigits n with _ | ⟨c, cs⟩
  · exact absurd hnd (natDigits_ne_nil n)
  · rw [← hnd]
    have hfold := natDigits_foldl n 0
    simp only [zero_mul, zero_add] at hfold
    rcases hnd' : natDigits n with _ | ⟨c', cs'⟩
    · exact absurd hnd' (natDigits_ne_nil n)
    · rw [hnd'] at hfold
      simp [hfold]

theorem parseStrAux_escape (cs rest : List Char) :
    parseStrAux (escapeList cs ++ '"' :: rest) = some (cs, rest) := by
  induction cs with
  | nil =>
      simp only [escapeList, List.nil_append]
      rw [parseStrAux.eq_def]
      simp
  | cons c cs ih =>
      by_cases h : c = '"' ∨ c = '\\'
      · have hbq : ¬ (('\\' : Char) = '"') := by decide
        simp only [escapeList, escapeChar, if_pos h, List.cons_append, List.append_assoc,
          List.nil_append]
        rw [parseStrAux.eq_def]
        simp only [if_neg hbq, if_pos rfl]
        simp [ih]
      · have h1 : ¬ (c = '"') := fun hc => h (Or.inl hc)
        have h2 : ¬ (c = '\\') := fun hc => h (Or.inr hc)
        simp only [escapeList, escapeChar, if_neg h, List.cons_append, List.append_assoc,
          List.nil_append]
        rw [parseStrAux.eq_def]
        simp only [if_neg h1, if_neg h2]
        simp [ih]

mutual

/-- Fuel needed by the parser to read back a printed value. -/
def sizeJ : Json → Nat
  | .arr items => 1 + sizeL items
  | .obj fields => 1 + sizeF fields
  | _ => 1

/-- Fuel needed for a list of sequence elements. -/
def sizeL : List Json → Nat
  | [] => 0
  | v :: rest => 1 + sizeJ v + sizeL rest

/-- Fuel needed for a list of mapping members. -/
def sizeF : List (String × Json) → Nat
  | [] => 0
  | (_, v) :: rest => 1 + sizeJ v + sizeF rest

end

theorem sizeJ_pos (v : Json) : 1 ≤ sizeJ v := by
  cases v <;> simp [sizeJ]

mutual

theorem sizeJ_le_length (v : Json) : sizeJ v ≤ (printJson v).length := by
  cases v with
  | null => simp [sizeJ, printJson]
  | bool b => cases b <;> simp [sizeJ, printJson]
  | num i =>
      have h1 : 1 ≤ (printInt i).length := by
        rw [printInt]
        by_cases h : i < 0
        · simp [h]
        · simp only [if_neg h]
          rcases hnd : natDigits i.toNat with _ | ⟨c, cs⟩
          · exact absurd hnd (natDigits_ne_nil _)
          · simp [hnd]
      simpa [sizeJ, printJson] using h1
  | str s => simp [sizeJ, printJson]
  | arr items =>
      cases items with
      | nil => simp [sizeJ, sizeL, printJson, printElems]
      | cons v vs =>
          have hv := sizeJ_le_length v
          have ht := sizeLTail_le vs
          simp only [sizeJ, sizeL, printJson, printElems, List.length_cons,
            List.length_append]
          omega
  | obj fields =>
      cases fields with
      | nil => simp [sizeJ, sizeF, printJson, printFields]
      | cons p rest =>
          obtain ⟨k, v⟩ := p
          have hv := sizeJ_le_length v
          have ht := sizeFTail_le rest
          simp only [sizeJ, sizeF, printJson, printFields, List.length_cons,
            List.length_append]
          omega

theorem sizeLTail_le (l : List Json) : sizeL l ≤ (printElemsTail l).length := by
  cases l with
  | nil => simp [sizeL, printElemsTail]
  | cons v vs =>
      have hv := sizeJ_le_length v
      have ht := sizeLTail_le vs
      simp only [sizeL, printElemsTail, List.length_cons, List.length_append]
      omega

theorem sizeFTail_le (l : List (String × Json)) : sizeF l ≤ (printFieldsTail l).length := by
  cases l with
  | nil => simp [sizeF, printFieldsTail]
  | cons p rest =>
      obtain ⟨k, v⟩ := p
      have hv := sizeJ_le_length v
      have ht := sizeFTail_le rest
      simp only [sizeF, printFieldsTail, List.length_cons, List.length_append]
      omega

end

theorem headKind_digit (c : Char) (h : isDigitChar c = true) : headKind c = 7 := by
  have h0 : ¬ (c = 'n') := by rintro rfl; exact absurd h (by decide)
  have h1 : ¬ (c = 't') := by rintro rfl; exact absurd h (by decide)
  have h2 : ¬ (c = 'f') := by rintro rfl; exact absurd h (by decide)
  have h3 : ¬ (c = '"') := by rintro rfl; exact absurd h (by decide)
  have h4 : ¬ (c = '-') := by rintro rfl; exact absurd h (by decide)
  have h5 : ¬ (c = '[') := by rintro rfl; exact absurd h (by decide)
  have h6 : ¬ (c = Char.ofNat 123) := by rintro rfl; exact absurd h (by decide)
  simp [headKind, h0, h1, h2, h3, h4, h5, h6, h]

theorem printJson_head (v : Json) :
    ∃ c cs, printJson v = c :: cs ∧ ¬ (c = ']') ∧ ¬ (c = Char.ofNat 125) ∧
      ¬ (c = ',') := by
  cases v with
  | null => exact ⟨'n', _, rfl, by decide, by decide, by decide⟩
  | bool b =>
      cases b
      · exact ⟨'f', _, rfl, by decide, by decide, by decide⟩
      · exact ⟨'t', _, rfl, by decide, by decide, by decide⟩
  | num i =>
      by_cases h : i < 0
      · exact ⟨'-', natDigits i.natAbs, by simp [printJson, printInt, h],
          by decide, by decide, by decide⟩
      · rcases hnd : natDigits i.toNat with _ | ⟨c, cs⟩
        · exact absurd hnd (natDigits_ne_nil _)
        · have hc : isDigitChar c = true :=
            natDigits_digits i.toNat c (by rw [hnd]; simp)
          refine ⟨c, cs, by simp [printJson, printInt, h, hnd], ?_, ?_, ?_⟩
          · rintro rfl; exact absurd hc (by decide)
          · rintro rfl; exact absurd hc (by decide)
          · rintro rfl; exact absurd hc (by decide)
  | str s => exact ⟨'"', _, rfl, by decide, by decide, by decide⟩
  | arr items => exact ⟨'[', _, rfl, by decide, by decide, by decide⟩
  | obj fields => exact ⟨Char.ofNat 123, _, rfl, by decide, by decide, by decide⟩

theorem string_mk_data (s : String) : String.mk s.data = s := rfl

theorem parsePrint (fuel : Nat) :
    (∀ v rest, sizeJ v ≤ fuel → noDigitStart rest = true →
        parseJ fuel (printJson v ++ rest) = some (v, rest)) ∧
    (∀ l rest, l ≠ [] → sizeL l ≤ fuel →
        parseElems fuel (printElems l ++ ']' :: rest) = some (l, rest)) ∧
    (∀ fl rest, fl ≠ [] → sizeF fl ≤ fuel →
        parseFields fuel (printFields fl ++ Char.ofNat 125 :: rest) = some (fl, rest)) := by
  induction fuel using Nat.strong_induction_on with
  | _ fuel ih =>
      cases fuel with
      | zero =>
          refine ⟨?_, ?_, ?_⟩
          · intro v rest hsz _
            have := sizeJ_pos v
            omega
          · intro l rest hne hsz
            rcases l with _ | ⟨v, vs⟩
            · exact absurd rfl hne
            · simp only [sizeL] at hsz
              omega
          · intro fl rest hne hsz
            rcases fl with _ | ⟨⟨k, v⟩, fs⟩
            · exact absurd rfl hne
            · simp only [sizeF] at hsz
              omega
      | succ g =>
          have hP : ∀ v rest, sizeJ v ≤ g + 1 → noDigitStart rest = true →
              parseJ (g + 1) (printJson v ++ rest) = some (v, rest) := by
            intro v rest hsz hnd
            cases v with
            | null =>
                have h0 : headKind 'n' = 0 := by decide
                rw [show printJson Json.null ++ rest = 'n' :: 'u' :: 'l' :: 'l' :: rest from by
                  simp [printJson]]
                rw [parseJ.eq_3]
                simp [h0, expectChars]
            | bool b =>
                cases b
                · have h2 : headKind 'f' = 2 := by decide
                  rw [show printJson (Json.bool false) ++ rest =
                      'f' :: 'a' :: 'l' :: 's' :: 'e' :: rest from by simp [printJson]]
                  rw [parseJ.eq_3]
                  simp [h2, expectChars]
                · have h1 : headKind 't' = 1 := by decide
                  rw [show printJson (Json.bool true) ++ rest =
                      't' :: 'r' :: 'u' :: 'e' :: rest from by simp [printJson]]
                  rw [parseJ.eq_3]
                  simp [h1, expectChars]
            | num i =>
                by_cases hneg : i < 0
                · have h4 : headKind '-' = 4 := by decide
                  rw [show printJson (Json.num i) ++ rest =
                      '-' :: (natDigits i.natAbs ++ rest) from by
                    simp [printJson, printInt, hneg]]
                  rw [parseJ.eq_3]
                  simp only [h4]
                  rw [parseNat_print i.natAbs rest hnd]
                  have habs : ((i.natAbs : Int)) = -i :=
                    Int.ofNat_natAbs_of_nonpos (by omega)
                  simp [habs]
                · rcases hnd' : natDigits i.toNat with _ | ⟨c, cs⟩
                  · exact absurd hnd' (natDigits_ne_nil _)
                  · have hc : isDigitChar c = true :=
                      natDigits_digits i.toNat c (by rw [hnd']; simp)
                    have h7 : headKind c = 7 := headKind_digit c hc
                    rw [show printJson (Json.num i) ++ rest = c :: (cs ++ rest) from by
                      simp [printJson, printInt, hneg, hnd']]
                    rw [parseJ.eq_3]
                    have hnot0 : headKind c ≠ 0 := by omega
                    simp only [h7]
                    have harg : c :: (cs ++ rest) = natDigits i.toNat ++ rest := by
                      rw [hnd']
                      simp
                    rw [harg, parseNat_print i.toNat rest hnd]
                    simp
                    omega
            | str s =>
                have h3 : headKind '"' = 3 := by decide
                rw [show printJson (Json.str s) ++ rest =
                    '"' :: (escapeList s.data ++ '"' :: rest) from by simp [printJson]]
                rw [parseJ.eq_3]
                simp only [h3]
                rw [parseStrAux_escape s.data rest]
                simp [string_mk_data]
            | arr items =>
                have h5 : headKind '[' = 5 := by decide
                cases items with
                | nil =>
                    rw [show printJson (Json.arr []) ++ rest = '[' :: ']' :: rest from by
                      simp [printJson, printElems]]
                    rw [parseJ.eq_3]
                    simp [h5, headIs]
                | cons v vs =>
                    obtain ⟨c0, cs0, hpr, hc1, hc2, hc3⟩ := printJson_head v
                    have hq := (ih g (by omega)).2.1 (v :: vs) rest (by simp) (by
                      simp only [sizeJ] at hsz
                      omega)
                    rw [show printJson (Json.arr (v :: vs)) ++ rest =
                        '[' :: (printElems (v :: vs) ++ ']' :: rest) from by
                      simp [printJson]]
                    rw [parseJ.eq_3]
                    have hfalse : headIs ']' (printElems (v :: vs) ++ ']' :: rest) = false := by
                      rw [show printElems (v :: vs) ++ ']' :: rest =
                          c0 :: (cs0 ++ (printElemsTail vs ++ ']' :: rest)) from by
                        simp [printElems, hpr]]
                      simp [headIs, hc1]
                    simp [h5, hfalse, hq]
            | obj fields =>
                have h6 : headKind (Char.ofNat 123) = 6 := by decide
                cases fields with
                | nil =>
                    rw [show printJson (Json.obj []) ++ rest =
                        Char.ofNat 123 :: Char.ofNat 125 :: rest from by
                      simp [printJson, printFields]]
                    rw [parseJ.eq_3]
                    simp [h6, headIs]
                | cons p fs =>
                    obtain ⟨k, v⟩ := p
                    have hr := (ih g (by omega)).2.2 ((k, v) :: fs) rest (by simp) (by
                      simp only [sizeJ] at hsz
                      omega)
                    rw [show printJson (Json.obj ((k, v) :: fs)) ++ rest =
                        Char.ofNat 123 :: (printFields ((k, v) :: fs) ++
                          Char.ofNat 125 :: rest) from by
                      simp [printJson]]
                    rw [parseJ.eq_3]
                    have hqb : ('"' : Char) ≠ Char.ofNat 125 := by decide
                    have hfalse : headIs (Char.ofNat 125)
                        (printFields ((k, v) :: fs) ++ Char.ofNat 125 :: rest) = false := by
                      rw [show printFields ((k, v) :: fs) ++ Char.ofNat 125 :: rest =
                          '"' :: (escapeList k.data ++ '"' :: ':' ::
                            (printJson v ++ (printFieldsTail fs ++ Char.ofNat 125 :: rest))) from by
                        simp [printFields]]
                      simp [headIs, hqb]
                    simp [h6, hfalse, hr]
          refine ⟨hP, ?_, ?_⟩
          · intro l rest hne hsz
            rcases l with _ | ⟨v, vs⟩
            · exact absurd rfl hne
            · rw [show printElems (v :: vs) ++ ']' :: rest =
                  printJson v ++ (printElemsTail vs ++ ']' :: rest) from by
                simp [printElems]]
              rw [parseElems.eq_2]
              have hndX : noDigitStart (printElemsTail vs ++ ']' :: rest) = true := by
                cases vs with
                | nil => rfl
                | cons v' vs' => rfl
              have hsz1 : sizeJ v ≤ g + 1 := by
                simp only [sizeL] at hsz
                omega
              rw [hP v _ hsz1 hndX]
              cases vs with
              | nil =>
                  simp [printElemsTail, headIs]
              | cons v' vs' =>
                  have hq' := (ih g (by omega)).2.1 (v' :: vs') rest (by simp) (by
                    simp only [sizeL] at hsz ⊢
                    have := sizeJ_pos v
                    omega)
                  have hcb : (',' : Char) ≠ ']' := by decide
                  simp only [printElemsTail, List.cons_append, List.append_assoc] at hq' ⊢
                  simp only [printElems, List.cons_append, List.append_assoc] at hq'
                  simp [headIs, hcb, hq']
          · intro fl rest hne hsz
            rcases fl with _ | ⟨⟨k, v⟩, fs⟩
            · exact absurd rfl hne
            · rw [show printFields ((k, v) :: fs) ++ Char.ofNat 125 :: rest =
                  '"' :: (escapeList k.data ++ '"' :: ':' ::
                    (printJson v ++ (printFieldsTail fs ++ Char.ofNat 125 :: rest))) from by
                simp [printFields]]
              rw [parseFields.eq_2]
              have hndX : noDigitStart (printFieldsTail fs ++ Char.ofNat 125 :: rest) = true := by
                cases fs with
                | nil => rfl
                | cons p' fs' => obtain ⟨k', v'⟩ := p'; rfl
              have hsz1 : sizeJ v ≤ g + 1 := by
                simp only [sizeF] at hsz
                omega
              have hPv := hP v (printFieldsTail fs ++ Char.ofNat 125 :: rest) hsz1 hndX
              have hsq : ∀ xs : List Char, headIs '"' ('"' :: xs) = true := fun _ => rfl
              have hcol : ∀ xs : List Char, headIs ':' (':' :: xs) = true := fun _ => rfl
              cases fs with
              | nil =>
                  have hrb : ∀ xs : List Char,
                      headIs (Char.ofNat 125) (Char.ofNat 125 :: xs) = true := fun _ => rfl
                  simp only [printFieldsTail, List.nil_append] at hPv ⊢
                  simp [hsq, hcol, hrb, parseStrAux_escape, hPv, string_mk_data]
              | cons p2 fs2 =>
                  obtain ⟨k2, v2⟩ := p2
                  have hq2 := (ih g (by omega)).2.2 ((k2, v2) :: fs2) rest (by simp) (by
                    simp only [sizeF] at hsz ⊢
                    have := sizeJ_pos v
                    omega)
                  have hrb2 : ∀ xs : List Char,
                      headIs (Char.ofNat 125) (',' :: xs) = false := fun _ => rfl
                  have hcm : ∀ xs : List Char, headIs ',' (',' :: xs) = true := fun _ => rfl
                  simp only [printFields, List.cons_append, List.append_assoc] at hq2
                  simp only [printFieldsTail, List.cons_append, List.append_assoc] at hPv ⊢
                  simp [hsq, hcol, hrb2, hcm, parseStrAux_escape, hPv, hq2, string_mk_data]

theorem parseJ_printJson (v : Json) :
    parseJ ((printJson v).length + 1) (printJson v) = some (v, []) := by
  have h := (parsePrint ((printJson v).length + 1)).1 v []
    (by have := sizeJ_le_length v; omega) rfl
  simpa using h

theorem parseJsonString_print (v : Json) :
    parseJsonString (String.mk (printJson v)) = .ok v := by
  rw [parseJsonString]
  rw [show (String.mk (printJson v)).data = printJson v from rfl]
  rw [parseJ_printJson v]

/-!
### The claims
-/

/-- C1: Sequence-form decode correctness — decoding a sequence whose
elements are all plain strings succeeds on both decode paths (the generic
serde visitor's `visit_seq` and `from_json_value` on a JSON array), and
yields the map whose key set is exactly the set of names in the sequence,
where every key maps to `from_name` of that key; the distinct-keys
invariant means every name is mapped to exactly one value. -/
theorem claim1_seq_decode {T : Type} (fn : String → T) (dec : Json → Except String T)
    (names : List String) :
    from_json_value fn dec (Json.arr (names.map Json.str)) =
        .ok (NamedMap.fromNames fn names) ∧
    deserializeNM fn dec (Json.arr (names.map Json.str)) =
        .ok (NamedMap.fromNames fn names) ∧
    (∀ k, (NamedMap.fromNames fn names).lookup k =
        if k ∈ names then some (fn k) else none) ∧
    (keysOf (NamedMap.fromNames fn names).entries).Nodup := by
  refine ⟨?_, ?_, ?_, (NamedMap.fromNames fn names).nodupKeys⟩
  · simp [from_json_value, fromJsonArrAux_strings, NamedMap.fromNames]
  · simp [deserializeNM, visitSeqAux_strings, NamedMap.fromNames]
  · intro k
    exact NamedMap.lookup_fromNames fn names k

/-- C2: Canonical encode shape — encoding a `NamedMap` always produces the
mapping (object) shape, never the sequence shape, for every map (in
particular for one decoded from a sequence of names), and `to_json_string`
is the printed form of that object. -/
theorem claim2_encode_shape {T : Type} (enc : T → Json) (m : NamedMap T) :
    (∃ fields, to_json_value enc m = Json.obj fields) ∧
    (to_json_value enc m).isObj = true ∧
    (∀ items, to_json_value enc m ≠ Json.arr items) ∧
    to_json_string enc m = String.mk (printJson (to_json_value enc m)) := by
  refine ⟨⟨_, rfl⟩, rfl, ?_, rfl⟩
  intro items h
  simp [to_json_value] at h

/-- C3: Round-trip (mapping form) — for a map built by direct insertion
(the distinct-keys invariant characterizes exactly the reachable maps) and
an element codec where decode inverts encode, serializing with
`to_json_string` and decoding with `from_json_str` succeeds and yields a
collection with the same keys and equal values. -/
theorem claim3_roundtrip_mapping {T : Type} (fn : String → T)
    (dec : Json → Except String T) (enc : T → Json)
    (hcodec : ∀ t, dec (enc t) = .ok t) (m : NamedMap T) :
    ∃ m' : NamedMap T,
      from_json_str fn dec (to_json_string enc m) = .ok m' ∧
        NamedMap.Equiv m' m := by
  rw [from_json_str, to_json_string, parseJsonString_print]
  simp only [from_json_value, to_json_value]
  rw [decodeMapEntries_encoded dec enc hcodec m.entries (NamedMap.new T)]
  refine ⟨_, rfl, ?_⟩
  intro k
  rw [lookup_foldl_insert m.entries (NamedMap.new T) m.nodupKeys k]
  rcases h : assocLookup m.entries k with _ | v
  · simp [NamedMap.lookup, h, NamedMap.new, assocLookup]
  · simp [NamedMap.lookup, h]

/-- Witness for C3: a concrete boolean-valued map round-trips. -/
theorem claim3_roundtrip_mapping_witness :
    (∀ t : Bool, (fun j => match j with
        | Json.bool b => Except.ok b
        | _ => Except.error "expected bool") (Json.bool t) = Except.ok t) ∧
    ∃ m' : NamedMap Bool,
      from_json_str (fun _ => false)
          (fun j => match j with
            | Json.bool b => Except.ok b
            | _ => Except.error "expected bool")
          (to_json_string Json.bool ⟨[("a", true)], by decide⟩) = .ok m' ∧
        NamedMap.Equiv m' ⟨[("a", true)], by decide⟩ :=
  ⟨fun t => by cases t <;> rfl,
    claim3_roundtrip_mapping (fun _ => false)
      (fun j => match j with
        | Json.bool b => Except.ok b
        | _ => Except.error "expected bool")
      Json.bool (fun t => by cases t <;> rfl) ⟨[("a", true)], by decide⟩⟩

/-- C4: Invalid top-level shape rejection — a value that is neither a
sequence nor a mapping is rejected by both decode paths, independently of
the element type; the error result carries no collection at all. -/
theorem claim4_shape_rejection {T : Type} (fn : String → T)
    (dec : Json → Except String T) (v : Json)
    (h1 : v.isArr = false) (h2 : v.isObj = false) :
    from_json_value fn dec v =
        .error "NamedMap must be an object or array of strings" ∧
    ∃ e, deserializeNM fn dec v = .error e := by
  cases v with
  | arr items => simp [Json.isArr] at h1
  | obj fields => simp [Json.isObj] at h2
  | null =>
      exact ⟨rfl, "invalid type: expected either a map or a sequence of strings", rfl⟩
  | bool b =>
      exact ⟨rfl, "invalid type: expected either a map or a sequence of strings", rfl⟩
  | num n =>
      exact ⟨rfl, "invalid type: expected either a map or a sequence of strings", rfl⟩
  | str s =>
      exact ⟨rfl, "invalid type: expected either a map or a sequence of strings", rfl⟩

/-- Witness for C4: a bare number is rejected. -/
theorem claim4_shape_rejection_witness :
    (Json.num 5).isArr = false ∧ (Json.num 5).isObj = false ∧
    (from_json_value (fun n => n) decodeString (Json.num 5) =
        .error "NamedMap must be an object or array of strings" ∧
      ∃ e, deserializeNM (fun n => n) decodeString (Json.num 5) = .error e) :=
  ⟨rfl, rfl, claim4_shape_rejection (fun n => n) decodeString (Json.num 5) rfl rfl⟩

/-- C5: Invalid sequence element rejection and all-or-nothing failure — a
sequence containing a non-string element fails to decode on both paths
(with the element-type error), and the error result carries no partially
populated collection. -/
theorem claim5_bad_element {T : Type} (fn : String → T)
    (dec : Json → Except String T) (items : List Json)
    (h : items.all Json.isStr = false) :
    from_json_value fn dec (Json.arr items) =
        .error "array items must be strings" ∧
    ∃ e, deserializeNM fn dec (Json.arr items) = .error e := by
  refine ⟨?_, "invalid type: expected a string", ?_⟩
  · simp only [from_json_value]
    exact fromJsonArrAux_err fn items (NamedMap.new T) h
  · simp only [deserializeNM]
    exact visitSeqAux_err fn items (NamedMap.new T) h

/-- Witness for C5: decoding a mixed sequence fails. -/
theorem claim5_bad_element_witness :
    ([Json.str "a", Json.num 5].all Json.isStr = false) ∧
    (from_json_value (fun n => n) decodeString (Json.arr [Json.str "a", Json.num 5]) =
        .error "array items must be strings" ∧
      ∃ e, deserializeNM (fun n => n) decodeString
          (Json.arr [Json.str "a", Json.num 5]) = .error e) :=
  ⟨rfl, claim5_bad_element (fun n => n) decodeString [Json.str "a", Json.num 5] rfl⟩

/-- C6: Emptiness — the fresh map (and the `Default` impl) is empty, and
decoding the empty sequence or the empty mapping succeeds on both decode
paths with a valid empty collection. -/
theorem claim6_emptiness {T : Type} (fn : String → T)
    (dec : Json → Except String T) :
    (NamedMap.new T).is_empty = true ∧
    (NamedMap.defaultMap T).is_empty = true ∧
    from_json_value fn dec (Json.arr []) = .ok (NamedMap.new T) ∧
    from_json_value fn dec (Json.obj []) = .ok (NamedMap.new T) ∧
    deserializeNM fn dec (Json.arr []) = .ok (NamedMap.new T) ∧
    deserializeNM fn dec (Json.obj []) = .ok (NamedMap.new T) :=
  ⟨rfl, rfl, rfl, rfl, rfl, rfl⟩

/-- C7: Insert semantics and frame effect — after `insert k v` the key `k`
maps to `v`, every other key keeps its association, and the size grows by
one exactly when `k` was absent, else stays the same. -/
theorem claim7_insert {T : Type} (m : NamedMap T) (k : String) (v : T)
    (k' : String) (h : k' ≠ k) :
    (m.insert k v).lookup k = some v ∧
    (m.insert k v).lookup k' = m.lookup k' ∧
    (m.insert k v).size =
      (if (m.lookup k).isNone then m.size + 1 else m.size) :=
  ⟨NamedMap.lookup_insert_self m k v, NamedMap.lookup_insert_ne m k v k' h,
    NamedMap.size_insert m k v⟩

/-- Witness for C7: inserting a fresh key into a concrete one-entry map. -/
theorem claim7_insert_witness :
    ("a" : String) ≠ "b" ∧
    (((⟨[("b", 1)], by decide⟩ : NamedMap Nat).insert "b" 2).lookup "b" = some 2 ∧
      ((⟨[("b", 1)], by decide⟩ : NamedMap Nat).insert "b" 2).lookup "a" =
        (⟨[("b", 1)], by decide⟩ : NamedMap Nat).lookup "a" ∧
      ((⟨[("b", 1)], by decide⟩ : NamedMap Nat).insert "b" 2).size =
        (if ((⟨[("b", 1)], by decide⟩ : NamedMap Nat).lookup "b").isNone then
          (⟨[("b", 1)], by decide⟩ : NamedMap Nat).size + 1
        else (⟨[("b", 1)], by decide⟩ : NamedMap Nat).size)) :=
  ⟨by decide, claim7_insert ⟨[("b", 1)], by decide⟩ "b" 2 "a" (by decide)⟩

/-- C8: Mapping-form decode is the standard map decode — on a mapping
input, `from_json_value` gives exactly the result of the standard
structural decode of a plain string-keyed map (same success or failure,
same entries), the result does not depend on the `from_name` function,
and the generic visitor path does the same. -/
theorem claim8_mapping_std {T : Type} (fn fn' : String → T)
    (dec : Json → Except String T) (fields : List (String × Json)) :
    from_json_value fn dec (Json.obj fields) =
        stdStringMapDecode dec (Json.obj fields) ∧
    from_json_value fn dec (Json.obj fields) =
        from_json_value fn' dec (Json.obj fields) ∧
    deserializeNM fn dec (Json.obj fields) =
        from_json_value fn dec (Json.obj fields) := by
  refine ⟨?_, rfl, rfl⟩
  simp only [from_json_value, stdStringMapDecode]
  rw [decodeMapEntries_eq_std dec fields (NamedMap.new T)]

/-- C9: Agreement of the two decode paths — on every value the generic
serde path and `from_json_value` either both succeed with the same
collection or both fail. -/
theorem claim9_paths_agree {T : Type} (fn : String → T)
    (dec : Json → Except String T) (v : Json) :
    (∃ m, deserializeNM fn dec v = .ok m ∧ from_json_value fn dec v = .ok m) ∨
    (∃ e₁ e₂, deserializeNM fn dec v = .error e₁ ∧
      from_json_value fn dec v = .error e₂) := by
  cases v with
  | arr items =>
      rcases visitSeqAux_agree fn items (NamedMap.new T) with heq | ⟨e₁, e₂, h1, h2⟩
      · rcases hres : fromJsonArrAux fn items (NamedMap.new T) with e | m
        · right
          exact ⟨e, e, by simp [deserializeNM, heq, hres], by simp [from_json_value, hres]⟩
        · left
          exact ⟨m, by simp [deserializeNM, heq, hres], by simp [from_json_value, hres]⟩
      · right
        exact ⟨e₁, e₂, by simp [deserializeNM, h1], by simp [from_json_value, h2]⟩
  | obj fields =>
      rcases hres : decodeMapEntries dec fields (NamedMap.new T) with e | m
      · right
        exact ⟨e, e, by simp [deserializeNM, hres], by simp [from_json_value, hres]⟩
      · left
        exact ⟨m, by simp [deserializeNM, hres], by simp [from_json_value, hres]⟩
  | null =>
      right
      exact ⟨"invalid type: expected either a map or a sequence of strings",
        "NamedMap must be an object or array of strings", rfl, rfl⟩
  | bool b =>
      right
      exact ⟨"invalid type: expected either a map or a sequence of strings",
        "NamedMap must be an object or array of strings", rfl, rfl⟩
  | num n =>
      right
      exact ⟨"invalid type: expected either a map or a sequence of strings",
        "NamedMap must be an object or array of strings", rfl, rfl⟩
  | str s =>
      right
      exact ⟨"invalid type: expected either a map or a sequence of strings",
        "NamedMap must be an object or array of strings", rfl, rfl⟩

/-- C10: Duplicate names in list construction — building a map from a list
of names (with possible duplicates) yields the map whose keys are the
distinct names of the list, each mapping to `from_name` of the key, with
size the number of distinct names; repeats do not change the value. -/
theorem claim10_from_list {T : Type} (fn : String → T) (names : List String) :
    (∀ k, (NamedMap.fromNames fn names).lookup k =
        if k ∈ names then some (fn k) else none) ∧
    (NamedMap.fromNames fn names).size = names.dedup.length :=
  ⟨fun k => NamedMap.lookup_fromNames fn names k,
    NamedMap.size_fromNames fn names⟩
